import Mathlib

/-!
Verification of the multiplet-cascade core of the protonolysis repository.

The Rust source is shallowly embedded: `f64` values are modelled as exact
rationals (`ℚ`), `u32` values as `ℕ` (with an explicit `% 2 ^ 32` wrapping
variant where the accumulator width matters), and code that can panic
(out-of-bounds indexing, `unwrap`, failed assertions) is modelled as an
`Option`-returning function where `none` marks the panic.
-/

namespace Protonolysis

/-- A single type of proton coupled to a `Peak` (src/peak.rs, `Splitter`):
`n` equivalent protons with coupling constant `j` (Hz). -/
structure Splitter where
  n : ℕ
  j : ℚ
deriving DecidableEq, Repr

/-- An atomic component of a multiplet peak (src/peak.rs, `Peaklet`):
shift `δ` relative to the root peak center and fractional `integration`. -/
structure Peaklet where
  δ : ℚ
  integration : ℚ
deriving DecidableEq, Repr

/-- Rust `Splitter::resultant_peaklet_count`: `n + 1`. -/
def Splitter.resultantPeakletCount (s : Splitter) : ℕ := s.n + 1

/-- Rust `Peaklet::PARENT_SINGLET`: δ = 0, integration = 1. -/
def Peaklet.parentSinglet : Peaklet := ⟨0, 1⟩

/-- Rust `Peaklet::overlaps_with` (src/peak.rs): `(self.δ - b.δ).abs() < fwhm * 1.1`. -/
def Peaklet.overlapsWith (a b : Peaklet) (fwhm : ℚ) : Bool :=
  decide (|a.δ - b.δ| < fwhm * 1.1)

/-- A peak descriptor (src/peak.rs, `Peak`): splitter list and line width. -/
structure Peak where
  splitters : List Splitter
  fwhm : ℚ
deriving DecidableEq, Repr

/-- The cascade of splitting stages (src/peak.rs, `MultipletCascade`). -/
structure MultipletCascade where
  stages : List (List Peaklet)
  fwhm : ℚ
deriving DecidableEq, Repr

/-! ## Combinatorics (src/numerics.rs) -/

/-- The loop body of `pascals_triangle`: the Rust iterator maps mutable state
`prev` over `0..=n`, updating `prev = prev * (n + 1 - k) / k` for `k > 0`.
This variant models debug-profile `u32` arithmetic, where overflow aborts
instead of returning a value, so in-range runs coincide with `ℕ` arithmetic. -/
def pascalsTriangleGo (n : ℕ) : List ℕ → ℕ → List ℕ
  | [], _ => []
  | k :: ks, prev =>
    let next := if 0 < k then prev * (n + 1 - k) / k else prev
    next :: pascalsTriangleGo n ks next

/-- Rust `pascals_triangle(n)` (src/numerics.rs): the iterative binomial row. -/
def pascalsTriangle (n : ℕ) : List ℕ :=
  pascalsTriangleGo n (List.range (n + 1)) 1

/-- The same loop with the multiplication wrapping modulo `2 ^ 32`: the
release-profile behaviour of the `u32` accumulator of `pascals_triangle`. -/
def pascalsTriangle32Go (n : ℕ) : List ℕ → ℕ → List ℕ
  | [], _ => []
  | k :: ks, prev =>
    let next := if 0 < k then prev * (n + 1 - k) % 2 ^ 32 / k else prev
    next :: pascalsTriangle32Go n ks next

/-- Rust `pascals_triangle(n)` with a wrapping `u32` accumulator. -/
def pascalsTriangle32 (n : ℕ) : List ℕ :=
  pascalsTriangle32Go n (List.range (n + 1)) 1

/-- No intermediate product of the `pascals_triangle` recurrence overflows the
`u32` accumulator (the running value before step `k` is `C(n, k-1)`). -/
def pt32NoOverflow (n : ℕ) : Prop :=
  ∀ k < n + 1, 1 ≤ k → n.choose (k - 1) * (n + 1 - k) < 2 ^ 32

instance (n : ℕ) : Decidable (pt32NoOverflow n) := by
  unfold pt32NoOverflow; infer_instance

/-- Rust `normalized_pascals_triangle(n)` (src/numerics.rs): the row divided by
`f64::from(1u32 << n)`. -/
def normalizedPascalsTriangle (n : ℕ) : List ℚ :=
  (pascalsTriangle n).map (fun (a : ℕ) => (a : ℚ) / ((1 <<< n : ℕ) : ℚ))

/-! ## Cascade builder (src/peak.rs, `Peak::build_multiplet_cascade`) -/

/-- The child-generation loop of `build_multiplet_cascade`: starting from
offset `δ`, one child per weight `a`, with `integration * a` and `δ += j`. -/
def childrenAux (integration j : ℚ) : ℚ → List ℚ → List Peaklet
  | _, [] => []
  | δ, a :: as' => ⟨δ, integration * a⟩ :: childrenAux integration j (δ + j) as'

/-- The children a single parent peaklet gains from one splitter, as produced
by the loop body of `build_multiplet_cascade`: starting offset
`parent.δ - (count - 1) * j / 2`, spacing `j`, binomial weights. -/
def childrenOf (p : Peaklet) (s : Splitter) : List Peaklet :=
  childrenAux p.integration s.j
    (p.δ - ((s.resultantPeakletCount - 1 : ℕ) : ℚ) * s.j / 2)
    (normalizedPascalsTriangle s.n)

/-- Append `p` to the `i`-th stage list (the `cascade.stages[stage].push(peaklet)`
step); out-of-range `i` leaves the stages unchanged (the builder is proved to
stay in range). -/
def pushAt : List (List Peaklet) → ℕ → Peaklet → List (List Peaklet)
  | [], _, _ => []
  | st :: rest, 0, p => (st ++ [p]) :: rest
  | st :: rest, i + 1, p => st :: pushAt rest i p

/-- Total remaining work (node count of the splitting tree) of one queue item:
the termination measure of the BFS loop. -/
def cascadeWeight : List Splitter → ℕ
  | [] => 1
  | s :: rest => 1 + s.resultantPeakletCount * cascadeWeight rest

/-- Termination measure of the whole queue. -/
def queueWeight (q : List (Peaklet × List Splitter)) : ℕ :=
  (q.map (fun it => cascadeWeight it.2)).sum

theorem length_childrenAux (integration j : ℚ) :
    ∀ (δ : ℚ) (as' : List ℚ), (childrenAux integration j δ as').length = as'.length := by
  intro δ as'
  induction as' generalizing δ with
  | nil => rfl
  | cons a as' ih => simp [childrenAux, ih]

theorem length_pascalsTriangleGo (n : ℕ) :
    ∀ (ks : List ℕ) (prev : ℕ), (pascalsTriangleGo n ks prev).length = ks.length := by
  intro ks
  induction ks with
  | nil => intro prev; rfl
  | cons k ks ih => intro prev; simp [pascalsTriangleGo, ih]

theorem length_pascalsTriangle (n : ℕ) : (pascalsTriangle n).length = n + 1 := by
  simp [pascalsTriangle, length_pascalsTriangleGo]

theorem length_normalizedPascalsTriangle (n : ℕ) :
    (normalizedPascalsTriangle n).length = n + 1 := by
  rw [normalizedPascalsTriangle, List.length_map, length_pascalsTriangle]

theorem length_childrenOf (p : Peaklet) (s : Splitter) :
    (childrenOf p s).length = s.resultantPeakletCount := by
  simp [childrenOf, length_childrenAux, length_normalizedPascalsTriangle,
    Splitter.resultantPeakletCount]

theorem queueWeight_append (q₁ q₂ : List (Peaklet × List Splitter)) :
    queueWeight (q₁ ++ q₂) = queueWeight q₁ + queueWeight q₂ := by
  simp [queueWeight]

theorem queueWeight_children (p : Peaklet) (s : Splitter) (rest : List Splitter) :
    queueWeight ((childrenOf p s).map (fun c => (c, rest)))
      = s.resultantPeakletCount * cascadeWeight rest := by
  have h : ∀ (l : List Peaklet),
      queueWeight (l.map (fun c => (c, rest))) = l.length * cascadeWeight rest := by
    intro l
    induction l with
    | nil => simp [queueWeight]
    | cons a l ih =>
      simp only [List.map_cons, queueWeight, List.sum_cons] at ih ⊢
      rw [ih]; simp [List.length_cons]; ring
  rw [h, length_childrenOf]

/-- The BFS loop of `build_multiplet_cascade`: pop the front queue entry,
record it into stage `total - remaining`, and, when splitters remain, enqueue
the children produced by the first one. -/
def bfs (total : ℕ) : List (Peaklet × List Splitter) → List (List Peaklet) → List (List Peaklet)
  | [], stages => stages
  | (p, []) :: queue, stages =>
      bfs total queue (pushAt stages (total - ([] : List Splitter).length) p)
  | (p, s :: rest) :: queue, stages =>
      bfs total (queue ++ (childrenOf p s).map (fun c => (c, rest)))
        (pushAt stages (total - (s :: rest).length) p)
termination_by q _ => queueWeight q
decreasing_by
  · simp [queueWeight, cascadeWeight]
  · rw [queueWeight_append, queueWeight_children]
    simp only [queueWeight, List.map_cons, List.sum_cons, cascadeWeight]
    omega

/-- Rust `Peak::build_multiplet_cascade` (src/peak.rs): seed the queue with the
parent singlet and the full splitter list, stages preallocated empty. -/
def Peak.buildMultipletCascade (peak : Peak) : MultipletCascade :=
  { stages := bfs peak.splitters.length [(Peaklet.parentSinglet, peak.splitters)]
      (List.replicate (peak.splitters.length + 1) [])
    fwhm := peak.fwhm }

/-- One level-synchronous expansion step: every parent of a stage contributes
its children, groups contiguous and in parent order. -/
def expandStage (ps : List Peaklet) (s : Splitter) : List Peaklet :=
  ps.flatMap (fun p => childrenOf p s)

/-- The stage-by-stage description of the cascade, proved below to coincide
with the breadth-first construction. -/
def stagesFrom (ps : List Peaklet) : List Splitter → List (List Peaklet)
  | [] => [ps]
  | s :: rest => ps :: stagesFrom (expandStage ps s) rest

/-! ## Stage queries (src/peak.rs, `MultipletCascade`) -/

/-- Rust `slice::chunks_exact(k)`: successive chunks of length `k`, the remainder
dropped (`k = 0` panics in Rust; the callers below guard it with `none`). -/
def chunksExact (k : ℕ) (l : List α) : List (List α) :=
  if h : k = 0 ∨ l.length < k then []
  else l.take k :: chunksExact k (l.drop k)
termination_by l.length
decreasing_by
  push_neg at h
  simp only [List.length_drop]
  omega

/-- Rust `MultipletCascade::iter_nth_stage` (src/peak.rs): chunk stage `n` into
equal groups, pairing chunk `i` with parent `stages[n-1][i]`. `none` models
each of the panics: `n = 0`, an out-of-range stage index, a modulus or
chunking by zero, and the group-divisibility assertion. -/
def MultipletCascade.iterNthStage (c : MultipletCascade) (n : ℕ) :
    Option (List (Peaklet × List Peaklet)) :=
  if n = 0 then none else
  match c.stages.get? (n - 1), c.stages.get? n with
  | some parents, some children =>
    if parents.length = 0 then none
    else if children.length % parents.length ≠ 0 then none
    else
      let groupSize := children.length / parents.length
      if groupSize = 0 then none
      else some ((chunksExact groupSize children).enum.map
        (fun ig => (parents.getD ig.1 Peaklet.parentSinglet, ig.2)))
  | _, _ => none

/-- Rust `array_windows().all(...)` over adjacent pairs. -/
def allAdjacent (f : α → α → Bool) : List α → Bool
  | a :: b :: rest => f a b && allAdjacent f (b :: rest)
  | _ => true

/-- Rust `MultipletCascade::is_stage_resolved` (src/peak.rs): stage 0 is trivially
resolved; otherwise check the first parent group's adjacent children for
overlap. `none` models the `unwrap`/indexing panics. -/
def MultipletCascade.isStageResolved (c : MultipletCascade) (n : ℕ) : Option Bool :=
  if n = 0 then some true
  else
    match c.iterNthStage n with
    | some (g :: _) => some (allAdjacent (fun a b => !a.overlapsWith b c.fwhm) g.2)
    | _ => none

/-! ## Fractional stage index (src/peak.rs, `FractionalStageIndex`) -/

namespace FractionalStageIndex

/-- The default `approx` absolute tolerance for `f64`: `f64::EPSILON = 2⁻⁵²`. -/
def epsF64 : ℚ := 1 / 2 ^ 52

/-- Rust `FractionalStageIndex::full`: `floor` cast to `usize`. The wrapped value is
asserted non-negative at construction, so `toNat` loses nothing. -/
def full (x : ℚ) : ℕ := ⌊x⌋.toNat

/-- Rust `f64::fract` for the non-negative domain the constructor asserts:
`x - ⌊x⌋` (`f64::fract` truncates toward zero, which equals `floor` there). -/
def fract (x : ℚ) : ℚ := x - ⌊x⌋

/-- Rust `FractionalStageIndex::has_significant_partial`:
`abs_diff_ne!(fract, 0.0)`, i.e. `¬ (|fract - 0| ≤ ε)`. -/
def hasSignificantPartial (x : ℚ) : Bool := !decide (|fract x - 0| ≤ epsF64)

/-- Rust `FractionalStageIndex::partial_and_index`. -/
def partialAndIndex (x : ℚ) : Option (ℕ × ℚ) :=
  if hasSignificantPartial x then some (full x + 1, fract x) else none

/-- Rust `FractionalStageIndex::total_stage_count`. -/
def totalStageCount (x : ℚ) : ℕ :=
  full x + (if hasSignificantPartial x then 1 else 0)

end FractionalStageIndex

/-- Rust `Peak::nth_partial_peak` (src/peak.rs): truncate the splitter list to
`total_stage_count()` and scale the last splitter's `j` by the fractional part
when one is significant. `none` models the `splitters[idx - 1]` panic when the
index is out of bounds. -/
def Peak.nthPartialPeak (peak : Peak) (n : ℚ) : Option Peak :=
  let truncated := peak.splitters.take (FractionalStageIndex.totalStageCount n)
  match FractionalStageIndex.partialAndIndex n with
  | none => some { peak with splitters := truncated }
  | some (idx, part) =>
    if h : idx - 1 < truncated.length then
      let s := truncated.get ⟨idx - 1, h⟩
      some { peak with splitters := truncated.set (idx - 1) { s with j := s.j * part } }
    else none

/-! ## Naming (src/peak.rs, `Splitter::abbreviate_pattern`, `Peak::name`) -/

/-- Rust `PATTERN_ABBREVIATIONS`. -/
def PATTERN_ABBREVIATIONS : List String := ["s", "d", "t", "q", "p", "h", "hept"]

/-- A `Cow<'static, str>`: whether the string is borrowed from the
abbreviation table or an owned digit fallback is observable via `matches!`. -/
inductive CowStr where
  | borrowed : String → CowStr
  | owned : String → CowStr
deriving DecidableEq, Repr

/-- The underlying string of either variant. -/
def CowStr.str : CowStr → String
  | .borrowed s => s
  | .owned s => s

/-- Rust `matches!(name, Cow::Borrowed(_))`. -/
def CowStr.isBorrowed : CowStr → Bool
  | .borrowed _ => true
  | .owned _ => false

/-- Rust `Splitter::abbreviate_pattern`: the table entry at index `n` when present,
otherwise the resultant peaklet count rendered as digits (owned). -/
def Splitter.abbreviatePattern (s : Splitter) : CowStr :=
  match PATTERN_ABBREVIATIONS.get? s.n with
  | some a => .borrowed a
  | none => .owned (toString s.resultantPeakletCount)

/-- Rust `collect::<Option<String>>()`: concatenate, short-circuiting on `None`. -/
def collectOptionStrings : List (Option String) → Option String
  | [] => some ""
  | none :: _ => none
  | some s :: rest => (collectOptionStrings rest).map (fun t => s ++ t)

/-- The per-splitter step of `Peak::name`:
`(name.len() == 1 && matches!(name, Cow::Borrowed(_))).then_some(name)`. -/
def nameEntry (s : Splitter) : Option String :=
  let a := s.abbreviatePattern
  if a.str.length = 1 && a.isBorrowed then some a.str else none

/-- Plain concatenation of strings in order, as `collect` performs it. -/
def strConcat : List String → String
  | [] => ""
  | s :: rest => s ++ strConcat rest

/-- Rust `Peak::name` (src/peak.rs): the singlet abbreviation for no splitters;
otherwise each splitter contributes its abbreviation only when it is a
single-character borrowed one, and the whole name collapses to `none` if any
contribution fails. -/
def Peak.name (p : Peak) : Option String :=
  if p.splitters.length = 0 then some (PATTERN_ABBREVIATIONS.getD 0 "")
  else collectOptionStrings (p.splitters.map nameEntry)

/-- Rust `Peak::sort_by_j` (src/peak.rs): stable sort by descending coupling
constant (`sort_by(|a, b| b.j.total_cmp(&a.j))`). -/
def Peak.sortByJ (p : Peak) : Peak :=
  { p with splitters := p.splitters.mergeSort (fun a b => decide (b.j ≤ a.j)) }

/-! ## Gaussian sums (src/numerics.rs, `Gaussian`, `GaussianSum`) -/

/-- Rust `Gaussian` (src/numerics.rs): mean, standard deviation, weight. -/
structure Gaussian where
  μ : ℚ
  σ : ℚ
  normalize : ℚ
deriving DecidableEq, Repr

/-- Rust `2 √(2 ln 2)`, the FWHM-to-σ factor, as the literal the source uses. -/
def FWHM_FOR_σ : ℚ := 2.354820045

/-- Rust `Gaussian::with_fwhm`. -/
def Gaussian.withFwhm (fwhm μ normalize : ℚ) : Gaussian :=
  ⟨μ, fwhm / FWHM_FOR_σ, normalize⟩

/-- Rust `GaussianSum` (src/numerics.rs): components of the sum. -/
structure GaussianSum where
  gaussians : List Gaussian
deriving DecidableEq, Repr

/-- Rust `FromIterator for GaussianSum`: collect and stable-sort by mean. -/
def GaussianSum.fromList (l : List Gaussian) : GaussianSum :=
  ⟨l.mergeSort (fun a b => decide (a.μ ≤ b.μ))⟩

/-- Rust `GaussianSum::extent` (src/numerics.rs): fold the per-component intervals
`[μ - σ·s, μ + σ·s]` with componentwise min/max; `[0, 0]` for an empty sum. -/
def GaussianSum.extent (sum : GaussianSum) (σ : ℚ) : ℚ × ℚ :=
  match sum.gaussians.map (fun g => (g.μ - g.σ * σ, g.μ + g.σ * σ)) with
  | [] => (0, 0)
  | e :: es => es.foldl (fun a b => (min a.1 b.1, max a.2 b.2)) e

/-! ## Pascal's triangle produces binomial rows -/

theorem choose_mul_eq (n k : ℕ) (hk : 1 ≤ k) :
    n.choose (k - 1) * (n + 1 - k) = n.choose k * k := by
  obtain ⟨k, rfl⟩ := Nat.exists_eq_add_of_le hk
  have h := Nat.choose_succ_right_eq n k
  have h1 : 1 + k - 1 = k := by omega
  have h2 : n + 1 - (1 + k) = n - k := by omega
  rw [h1, h2]
  have h3 : 1 + k = k + 1 := by omega
  rw [h3, h]

theorem dvd_choose_step (n k : ℕ) (hk : 1 ≤ k) :
    k ∣ n.choose (k - 1) * (n + 1 - k) := by
  rw [choose_mul_eq n k hk]
  exact dvd_mul_left k (n.choose k)

theorem pascalsTriangleGo_choose (n : ℕ) :
    ∀ (m k : ℕ), 1 ≤ k →
      pascalsTriangleGo n (List.range' k m) (n.choose (k - 1))
        = (List.range' k m).map n.choose := by
  intro m
  induction m with
  | zero => intro k _; rfl
  | succ m ih =>
    intro k hk
    rw [List.range'_succ]
    simp only [pascalsTriangleGo, List.map_cons]
    have hpos : 0 < k := hk
    simp only [if_pos hpos]
    have hstep : n.choose (k - 1) * (n + 1 - k) / k = n.choose k := by
      rw [choose_mul_eq n k hk, Nat.mul_div_cancel _ hpos]
    rw [hstep]
    have hk1 : n.choose k = n.choose (k + 1 - 1) := by norm_num
    rw [hk1]
    rw [ih (k + 1) (by omega)]

theorem pascalsTriangle_eq (n : ℕ) :
    pascalsTriangle n = (List.range (n + 1)).map n.choose := by
  have key := pascalsTriangleGo_choose n n 1 le_rfl
  simp only [Nat.sub_self, Nat.choose_zero_right] at key
  rw [pascalsTriangle, List.range_eq_range', List.range'_succ]
  simp [pascalsTriangleGo, key]

theorem pascalsTriangle32Go_choose (n : ℕ) :
    ∀ (m k : ℕ), 1 ≤ k →
      (∀ j, k ≤ j → j < k + m → n.choose (j - 1) * (n + 1 - j) < 2 ^ 32) →
      pascalsTriangle32Go n (List.range' k m) (n.choose (k - 1))
        = (List.range' k m).map n.choose := by
  intro m
  induction m with
  | zero => intro k _ _; rfl
  | succ m ih =>
    intro k hk hb
    rw [List.range'_succ]
    simp only [pascalsTriangle32Go, List.map_cons]
    have hpos : 0 < k := hk
    simp only [if_pos hpos]
    have hlt : n.choose (k - 1) * (n + 1 - k) < 2 ^ 32 := hb k le_rfl (by omega)
    have hstep : n.choose (k - 1) * (n + 1 - k) % 2 ^ 32 / k = n.choose k := by
      rw [Nat.mod_eq_of_lt hlt, choose_mul_eq n k hk, Nat.mul_div_cancel _ hpos]
    rw [hstep]
    have hk1 : n.choose k = n.choose (k + 1 - 1) := by norm_num
    rw [hk1]
    rw [ih (k + 1) (by omega) (fun j h1 h2 => hb j (by omega) (by omega))]

theorem pascalsTriangle32_eq (n : ℕ) (h : pt32NoOverflow n) :
    pascalsTriangle32 n = (List.range (n + 1)).map n.choose := by
  have key := pascalsTriangle32Go_choose n n 1 le_rfl (fun j h1 h2 => h j (by omega) h1)
  simp only [Nat.sub_self, Nat.choose_zero_right] at key
  rw [pascalsTriangle32, List.range_eq_range', List.range'_succ]
  simp [pascalsTriangle32Go, key]

theorem list_range_map_sum {M : Type*} [AddCommMonoid M] (f : ℕ → M) (m : ℕ) :
    ((List.range m).map f).sum = ∑ i ∈ Finset.range m, f i := by
  induction m with
  | zero => rfl
  | succ m ih => rw [List.range_succ, Finset.sum_range_succ, List.map_append, List.sum_append, ih]; simp

theorem sum_pascalsTriangle (n : ℕ) : (pascalsTriangle n).sum = 2 ^ n := by
  rw [pascalsTriangle_eq, list_range_map_sum, Nat.sum_range_choose]

theorem list_map_div_sum (l : List ℕ) (c : ℚ) :
    (l.map (fun (a : ℕ) => (a : ℚ) / c)).sum = ((l.sum : ℕ) : ℚ) / c := by
  induction l with
  | nil => simp
  | cons a l ih => simp [ih, add_div]

theorem sum_normalizedPascalsTriangle (n : ℕ) :
    (normalizedPascalsTriangle n).sum = 1 := by
  rw [normalizedPascalsTriangle, list_map_div_sum, sum_pascalsTriangle]
  have h : ((1 <<< n : ℕ) : ℚ) = (2 : ℚ) ^ n := by
    rw [Nat.one_shiftLeft]; push_cast; ring
  rw [h]
  have h2 : ((2 ^ n : ℕ) : ℚ) = (2 : ℚ) ^ n := by push_cast; ring
  rw [h2, div_self (by positivity)]

/-! ## The children of one parent -/

theorem childrenAux_eq (I j : ℚ) :
    ∀ (as' : List ℚ) (δ0 : ℚ),
      childrenAux I j δ0 as'
        = (List.range as'.length).map
            (fun i => ⟨δ0 + (i : ℚ) * j, I * as'.getD i 0⟩) := by
  intro as'
  induction as' with
  | nil => intro δ0; rfl
  | cons a as' ih =>
    intro δ0
    simp only [childrenAux, List.length_cons, List.range_succ_eq_map, List.map_cons,
      List.map_map]
    congr 1
    · simp
    · rw [ih (δ0 + j)]
      apply List.map_congr_left
      intro i _
      simp only [Function.comp_apply, List.getD_cons_succ, Peaklet.mk.injEq]
      refine ⟨by push_cast; ring, trivial⟩

theorem sum_integration_childrenAux (I j : ℚ) :
    ∀ (as' : List ℚ) (δ0 : ℚ),
      ((childrenAux I j δ0 as').map Peaklet.integration).sum = I * as'.sum := by
  intro as'
  induction as' with
  | nil => intro δ0; simp [childrenAux]
  | cons a as' ih =>
    intro δ0
    simp only [childrenAux, List.map_cons, List.sum_cons, List.sum_cons, ih]
    ring

theorem sum_integration_childrenOf (p : Peaklet) (s : Splitter) :
    ((childrenOf p s).map Peaklet.integration).sum = p.integration := by
  rw [childrenOf, sum_integration_childrenAux, sum_normalizedPascalsTriangle, mul_one]

/-! ## The BFS builder is the level-synchronous expansion -/

theorem pushAt_append :
    ∀ (st : List (List Peaklet)) (cur : List Peaklet) (tail : List (List Peaklet)) (p : Peaklet),
      pushAt (st ++ cur :: tail) st.length p = st ++ (cur ++ [p]) :: tail := by
  intro st
  induction st with
  | nil => intro cur tail p; simp [pushAt]
  | cons a st ih => intro cur tail p; simp [pushAt, ih]

theorem bfs_base :
    ∀ (qs : List Peaklet) (st : List (List Peaklet)) (acc : List Peaklet),
      bfs st.length (qs.map (fun q => (q, ([] : List Splitter)))) (st ++ [acc])
        = st ++ [acc ++ qs] := by
  intro qs
  induction qs with
  | nil => intro st acc; simp [bfs]
  | cons q qs ih =>
    intro st acc
    simp only [List.map_cons, bfs, List.length_nil, Nat.sub_zero]
    have hp : pushAt (st ++ [acc]) st.length q = st ++ [acc ++ [q]] :=
      pushAt_append st acc [] q
    rw [hp, ih st (acc ++ [q])]
    simp

theorem bfs_level :
    ∀ (rest : List Splitter) (s : Splitter) (ps qs : List Peaklet)
      (done : List (List Peaklet)) (cur : List Peaklet),
      bfs (done.length + 1 + rest.length)
        (ps.map (fun p => (p, s :: rest)) ++ qs.map (fun q => (q, rest)))
        (done ++ cur :: List.replicate (rest.length + 1) [])
      = done ++ (cur ++ ps) :: stagesFrom (qs ++ ps.flatMap (fun p => childrenOf p s)) rest := by
  intro rest
  induction rest with
  | nil =>
    intro s ps qs done cur
    induction ps generalizing qs cur with
    | nil =>
      simp only [List.length_nil, Nat.add_zero, List.map_nil, List.nil_append,
        List.flatMap_nil, List.append_nil, Nat.zero_add, List.replicate_one]
      have hb := bfs_base qs (done ++ [cur]) []
      have h1 : (done ++ [cur]).length = done.length + 1 := by simp
      have h2 : (done ++ [cur]) ++ [([] : List Peaklet)] = done ++ cur :: [[]] := by simp
      have h3 : (done ++ [cur]) ++ [([] : List Peaklet) ++ qs] = done ++ cur :: [qs] := by simp
      rw [h1, h2, h3] at hb
      rw [hb]
      simp [stagesFrom]
    | cons p ps ihp =>
      simp only [List.length_nil] at ihp
      simp only [List.map_cons, List.cons_append, bfs, List.length_cons, List.length_nil]
      have hidx : done.length + 1 + 0 - (0 + 1) = done.length := by omega
      rw [hidx]
      have hp := pushAt_append done cur (List.replicate (0 + 1) []) p
      rw [hp]
      have hq : ps.map (fun p => (p, ([s] : List Splitter)))
            ++ qs.map (fun q => (q, ([] : List Splitter)))
            ++ (childrenOf p s).map (fun c => (c, ([] : List Splitter)))
          = ps.map (fun p => (p, ([s] : List Splitter)))
            ++ (qs ++ childrenOf p s).map (fun q => (q, ([] : List Splitter))) := by
        simp [List.map_append]
      rw [hq, ihp (qs ++ childrenOf p s) (cur ++ [p])]
      simp [stagesFrom]
  | cons s' rest' ihrest =>
    intro s ps qs done cur
    induction ps generalizing qs cur with
    | nil =>
      have key := ihrest s' qs [] (done ++ [cur]) []
      have hlen : (done ++ [cur]).length + 1 + rest'.length
          = done.length + 1 + (s' :: rest').length := by simp; omega
      rw [hlen] at key
      simp only [List.map_nil, List.append_nil, List.nil_append, List.flatMap_nil] at key ⊢
      have hst : (done ++ [cur]) ++ ([] : List Peaklet) :: List.replicate (rest'.length + 1) []
          = done ++ cur :: List.replicate ((s' :: rest').length + 1) ([] : List Peaklet) := by
        simp [List.replicate_succ]
      rw [hst] at key
      rw [key]
      simp [stagesFrom, expandStage]
    | cons p ps ihp =>
      simp only [List.length_cons] at ihp
      simp only [List.map_cons, List.cons_append, bfs, List.length_cons]
      have hidx : done.length + 1 + (rest'.length + 1) - (rest'.length + 1 + 1)
          = done.length := by omega
      rw [hidx]
      have hp := pushAt_append done cur (List.replicate (rest'.length + 1 + 1) []) p
      rw [hp]
      have hq : ps.map (fun p => (p, s :: s' :: rest'))
            ++ qs.map (fun q => (q, s' :: rest'))
            ++ (childrenOf p s).map (fun c => (c, s' :: rest'))
          = ps.map (fun p => (p, s :: s' :: rest'))
            ++ (qs ++ childrenOf p s).map (fun q => (q, s' :: rest')) := by
        simp [List.map_append]
      rw [hq, ihp (qs ++ childrenOf p s) (cur ++ [p])]
      simp

theorem buildMultipletCascade_stages (peak : Peak) :
    (Peak.buildMultipletCascade peak).stages
      = stagesFrom [Peaklet.parentSinglet] peak.splitters := by
  rw [Peak.buildMultipletCascade]
  match h : peak.splitters with
  | [] =>
    have hb := bfs_base [Peaklet.parentSinglet] [] []
    simpa [stagesFrom] using hb
  | s :: rest =>
    have key := bfs_level rest s [Peaklet.parentSinglet] [] [] []
    simp only [List.length_nil, List.nil_append, List.map_cons, List.map_nil,
      List.append_nil, List.flatMap_cons, List.flatMap_nil] at key
    have hlen : 0 + 1 + rest.length = (s :: rest).length := by simp; omega
    rw [hlen] at key
    have hst : List.replicate ((s :: rest).length + 1) ([] : List Peaklet)
        = ([] : List Peaklet) :: List.replicate (rest.length + 1) [] := by
      simp [List.length_cons, List.replicate_succ]
    rw [hst]
    rw [key]
    simp [stagesFrom, expandStage]

/-! ## Stage structure of the cascade -/

theorem length_stagesFrom : ∀ (ss : List Splitter) (ps : List Peaklet),
    (stagesFrom ps ss).length = ss.length + 1 := by
  intro ss
  induction ss with
  | nil => intro ps; rfl
  | cons s rest ih => intro ps; simp [stagesFrom, ih]

theorem stagesFrom_getD_zero (ss : List Splitter) (ps : List Peaklet) :
    (stagesFrom ps ss).getD 0 [] = ps := by
  cases ss <;> rfl

theorem stagesFrom_getD : ∀ (ss : List Splitter) (ps : List Peaklet) (i : ℕ), i ≤ ss.length →
    (stagesFrom ps ss).getD i [] = (ss.take i).foldl expandStage ps := by
  intro ss
  induction ss with
  | nil =>
    intro ps i hi
    have h0 : i = 0 := by simpa using hi
    subst h0
    rfl
  | cons s rest ih =>
    intro ps i hi
    match i with
    | 0 => rfl
    | i + 1 =>
      simp only [stagesFrom, List.getD_cons_succ, List.take_succ_cons, List.foldl_cons]
      exact ih (expandStage ps s) i (by simpa using hi)

theorem length_expandStage (ps : List Peaklet) (s : Splitter) :
    (expandStage ps s).length = ps.length * s.resultantPeakletCount := by
  induction ps with
  | nil => simp [expandStage]
  | cons p ps ih =>
    simp only [expandStage, List.flatMap_cons, List.length_append, List.length_cons] at ih ⊢
    rw [length_childrenOf, ih]
    ring

theorem sum_integration_expandStage (ps : List Peaklet) (s : Splitter) :
    ((expandStage ps s).map Peaklet.integration).sum = (ps.map Peaklet.integration).sum := by
  induction ps with
  | nil => simp [expandStage]
  | cons p ps ih =>
    simp only [expandStage, List.flatMap_cons, List.map_append, List.sum_append,
      List.map_cons, List.sum_cons] at ih ⊢
    rw [sum_integration_childrenOf, ih]

theorem length_foldl_expandStage : ∀ (l : List Splitter) (ps : List Peaklet),
    (l.foldl expandStage ps).length = ps.length * (l.map Splitter.resultantPeakletCount).prod := by
  intro l
  induction l with
  | nil => intro ps; simp
  | cons s l ih =>
    intro ps
    simp only [List.foldl_cons, List.map_cons, List.prod_cons]
    rw [ih (expandStage ps s), length_expandStage]
    ring

theorem sum_integration_foldl_expandStage :
    ∀ (l : List Splitter) (ps : List Peaklet),
      ((l.foldl expandStage ps).map Peaklet.integration).sum
        = (ps.map Peaklet.integration).sum := by
  intro l
  induction l with
  | nil => intro ps; rfl
  | cons s l ih =>
    intro ps
    simp only [List.foldl_cons]
    rw [ih (expandStage ps s), sum_integration_expandStage]

theorem stagesFrom_take : ∀ (ss : List Splitter) (ps : List Peaklet) (k : ℕ), k ≤ ss.length →
    stagesFrom ps (ss.take k) = (stagesFrom ps ss).take (k + 1) := by
  intro ss
  induction ss with
  | nil =>
    intro ps k hk
    have h0 : k = 0 := by simpa using hk
    subst h0
    simp [stagesFrom]
  | cons s rest ih =>
    intro ps k hk
    match k with
    | 0 => simp [stagesFrom]
    | k + 1 =>
      simp only [List.take_succ_cons, stagesFrom]
      rw [ih (expandStage ps s) k (by simpa using hk)]

/-- The stage lists of a built cascade: stage `i` is the `i`-fold expansion of
the parent singlet. -/
theorem build_stage_eq (peak : Peak) (i : ℕ) (hi : i ≤ peak.splitters.length) :
    (Peak.buildMultipletCascade peak).stages.getD i []
      = (peak.splitters.take i).foldl expandStage [Peaklet.parentSinglet] := by
  rw [buildMultipletCascade_stages, stagesFrom_getD _ _ _ hi]

theorem build_stage_length (peak : Peak) (i : ℕ) (hi : i ≤ peak.splitters.length) :
    ((Peak.buildMultipletCascade peak).stages.getD i []).length
      = ((peak.splitters.take i).map Splitter.resultantPeakletCount).prod := by
  rw [build_stage_eq peak i hi, length_foldl_expandStage]
  simp

theorem build_stage_length_pos (peak : Peak) (i : ℕ) (hi : i ≤ peak.splitters.length) :
    0 < ((Peak.buildMultipletCascade peak).stages.getD i []).length := by
  rw [build_stage_length peak i hi]
  apply List.prod_pos
  intro a ha
  obtain ⟨s, _, rfl⟩ := List.mem_map.mp ha
  simp [Splitter.resultantPeakletCount]

theorem build_stage_succ (peak : Peak) (i : ℕ) (hi : i < peak.splitters.length) :
    (Peak.buildMultipletCascade peak).stages.getD (i + 1) []
      = expandStage ((Peak.buildMultipletCascade peak).stages.getD i [])
          (peak.splitters.get ⟨i, hi⟩) := by
  rw [build_stage_eq peak i (le_of_lt hi), build_stage_eq peak (i + 1) hi]
  rw [List.take_succ, List.getElem?_eq_getElem hi, List.foldl_append]
  rfl

/-! ## Recovering the parent groups from the flat stage lists -/

theorem chunksExact_nil (k : ℕ) : chunksExact k ([] : List Peaklet) = [] := by
  rw [chunksExact]
  split
  · rfl
  · rename_i h
    exfalso
    apply h
    rcases Nat.eq_zero_or_pos k with h0 | h0
    · exact Or.inl h0
    · exact Or.inr (by simpa using h0)

theorem chunksExact_flatten :
    ∀ (ls : List (List Peaklet)) (k : ℕ), k ≠ 0 → (∀ x ∈ ls, x.length = k) →
      chunksExact k ls.flatten = ls := by
  intro ls
  induction ls with
  | nil => intro k hk _; exact chunksExact_nil k
  | cons a ls ih =>
    intro k hk hlen
    have ha : a.length = k := hlen a (List.mem_cons_self a ls)
    rw [List.flatten_cons, chunksExact]
    have hnot : ¬(k = 0 ∨ (a ++ ls.flatten).length < k) := by
      push_neg
      refine ⟨hk, ?_⟩
      simp [List.length_append, ha]
    rw [dif_neg hnot]
    have ht : (a ++ ls.flatten).take k = a := by
      rw [← ha, List.take_left]
    have hd : (a ++ ls.flatten).drop k = ls.flatten := by
      rw [← ha, List.drop_left]
    rw [ht, hd, ih k hk (fun x hx => hlen x (List.mem_cons_of_mem a hx))]

theorem getD_append_self {α : Type*} (d : α) :
    ∀ (pre l : List α), (pre ++ l).getD pre.length d = l.getD 0 d := by
  intro pre
  induction pre with
  | nil => intro l; rfl
  | cons a pre ih => intro l; simpa using ih l

theorem enumFrom_map_getD_zip {α β : Type*} (d : α) :
    ∀ (cs : List β) (ps pre : List α), ps.length = cs.length →
      (cs.enumFrom pre.length).map (fun ig => ((pre ++ ps).getD ig.1 d, ig.2))
        = ps.zip cs := by
  intro cs
  induction cs with
  | nil =>
    intro ps pre hlen
    have : ps = [] := List.length_eq_zero.mp hlen
    subst this
    rfl
  | cons c cs ih =>
    intro ps pre hlen
    match ps, hlen with
    | p :: ps, hlen =>
      rw [List.enumFrom_cons, List.map_cons]
      have hhead : (pre ++ p :: ps).getD pre.length d = p := by
        rw [getD_append_self]
        rfl
      rw [hhead]
      have htail : (cs.enumFrom (pre.length + 1)).map
            (fun ig => ((pre ++ p :: ps).getD ig.1 d, ig.2)) = ps.zip cs := by
        have hpre : pre.length + 1 = (pre ++ [p]).length := by simp
        have happ : pre ++ p :: ps = (pre ++ [p]) ++ ps := by simp
        rw [hpre, happ]
        exact ih ps (pre ++ [p]) (by simpa using hlen)
      rw [htail]
      rfl

theorem enum_map_getD_zip {α β : Type*} (d : α) (cs : List β) (ps : List α)
    (hlen : ps.length = cs.length) :
    cs.enum.map (fun ig => (ps.getD ig.1 d, ig.2)) = ps.zip cs := by
  have h := enumFrom_map_getD_zip d cs ps [] hlen
  simpa [List.enum] using h

/-- Rust `iter_nth_stage` on a built cascade: each parent of stage `n - 1` is paired
with exactly its own children, in parent order. -/
theorem iterNthStage_build (peak : Peak) (n : ℕ) (h1 : 1 ≤ n)
    (h2 : n ≤ peak.splitters.length) :
    (Peak.buildMultipletCascade peak).iterNthStage n
      = some (((Peak.buildMultipletCascade peak).stages.getD (n - 1) []).map
          (fun p => (p, childrenOf p (peak.splitters.get
            ⟨n - 1, by omega⟩)))) := by
  set c := Peak.buildMultipletCascade peak with hc
  have hstages : c.stages.length = peak.splitters.length + 1 := by
    rw [hc, buildMultipletCascade_stages, length_stagesFrom]
  have hn1 : n - 1 < c.stages.length := by omega
  have hn : n < c.stages.length := by omega
  set s := peak.splitters.get ⟨n - 1, by omega⟩ with hs
  set parents := c.stages.getD (n - 1) [] with hparents
  have hchildren : c.stages.getD n [] = expandStage parents s := by
    have := build_stage_succ peak (n - 1) (by omega)
    rw [← hc] at this
    have hn' : n - 1 + 1 = n := by omega
    rw [hn'] at this
    exact this
  have hppos : 0 < parents.length := by
    rw [hparents, hc]
    exact build_stage_length_pos peak (n - 1) (by omega)
  have hclen : (c.stages.getD n []).length = parents.length * s.resultantPeakletCount := by
    rw [hchildren, length_expandStage]
  have hget1 : c.stages.get? (n - 1) = some parents := by
    rw [List.get?_eq_getElem?, List.getElem?_eq_getElem hn1, hparents,
      List.getD_eq_getElem?_getD, List.getElem?_eq_getElem hn1]
    rfl
  have hget2 : c.stages.get? n = some (c.stages.getD n []) := by
    rw [List.get?_eq_getElem?, List.getElem?_eq_getElem hn,
      List.getD_eq_getElem?_getD, List.getElem?_eq_getElem hn]
    rfl
  have hred : c.iterNthStage n
      = if parents.length = 0 then none
        else if (c.stages.getD n []).length % parents.length ≠ 0 then none
        else if (c.stages.getD n []).length / parents.length = 0 then none
        else some ((chunksExact ((c.stages.getD n []).length / parents.length)
            (c.stages.getD n [])).enum.map
          (fun ig => (parents.getD ig.1 Peaklet.parentSinglet, ig.2))) := by
    rw [MultipletCascade.iterNthStage, if_neg (by omega : ¬ n = 0), hget1, hget2]
  rw [hred]
  rw [if_neg (by omega)]
  have hmod : (c.stages.getD n []).length % parents.length = 0 := by
    rw [hclen, Nat.mul_mod_right]
  rw [if_neg (by push_neg; exact hmod)]
  have hdiv : (c.stages.getD n []).length / parents.length = s.resultantPeakletCount := by
    rw [hclen, Nat.mul_div_cancel_left _ hppos]
  simp only [hdiv]
  rw [if_neg (by simp [Splitter.resultantPeakletCount])]
  have hchunks : chunksExact s.resultantPeakletCount (c.stages.getD n [])
      = parents.map (fun p => childrenOf p s) := by
    rw [hchildren, expandStage, List.flatMap_def]
    rw [chunksExact_flatten (parents.map (fun p => childrenOf p s))
      s.resultantPeakletCount (by simp [Splitter.resultantPeakletCount])
      (by intro x hx; obtain ⟨p, _, rfl⟩ := List.mem_map.mp hx; exact length_childrenOf p s)]
  rw [hchunks]
  rw [enum_map_getD_zip Peaklet.parentSinglet _ parents (by simp)]
  have hzip : parents.zip (parents.map (fun p => childrenOf p s))
      = parents.map (fun p => (p, childrenOf p s)) := by
    have := List.zip_map' (fun p => p) (fun p => childrenOf p s) parents
    simpa using this
  rw [hzip]

/-! ## Claim theorems -/

/-- C1: in every built cascade, each parent group of every stage `i > 0` sums
its children's integrations to exactly the parent's integration, and the final
stage's integrations sum to 1, for any splitter configuration. -/
theorem C1_mass_conservation :
    (∀ (peak : Peak) (i : ℕ), i < peak.splitters.length →
      ∃ groups, (Peak.buildMultipletCascade peak).iterNthStage (i + 1) = some groups
        ∧ ∀ g ∈ groups, (g.2.map Peaklet.integration).sum = g.1.integration)
    ∧ (∀ peak : Peak,
        (((Peak.buildMultipletCascade peak).stages.getD peak.splitters.length []).map
          Peaklet.integration).sum = 1) := by
  constructor
  · intro peak i hi
    refine ⟨_, iterNthStage_build peak (i + 1) (by omega) (by omega), ?_⟩
    intro g hg
    obtain ⟨p, _, rfl⟩ := List.mem_map.mp hg
    exact sum_integration_childrenOf p _
  · intro peak
    rw [build_stage_eq peak peak.splitters.length le_rfl, List.take_length,
      sum_integration_foldl_expandStage]
    simp [Peaklet.parentSinglet]

theorem C1_mass_conservation_witness :
    (1 < (Peak.mk [⟨1, 8⟩, ⟨2, 2⟩] 1).splitters.length)
    ∧ ∃ groups,
        (Peak.buildMultipletCascade ⟨[⟨1, 8⟩, ⟨2, 2⟩], 1⟩).iterNthStage (1 + 1) = some groups
        ∧ ∀ g ∈ groups, (g.2.map Peaklet.integration).sum = g.1.integration :=
  ⟨by decide, C1_mass_conservation.1 ⟨[⟨1, 8⟩, ⟨2, 2⟩], 1⟩ 1 (by decide)⟩

/-- C2: a cascade over `m` splitters has `m + 1` stages; stage 0 is the single
parent singlet (δ = 0, integration = 1); stage `i` has `∏_{k<i} (n_k + 1)`
peaklets; and stage `i + 1` is exactly the in-order concatenation of each
stage-`i` parent's child run. -/
theorem C2_cascade_shape :
    ∀ peak : Peak,
      (Peak.buildMultipletCascade peak).stages.length = peak.splitters.length + 1
      ∧ (Peak.buildMultipletCascade peak).stages.getD 0 [] = [⟨0, 1⟩]
      ∧ (∀ i, i ≤ peak.splitters.length →
          ((Peak.buildMultipletCascade peak).stages.getD i []).length
            = ((peak.splitters.take i).map Splitter.resultantPeakletCount).prod)
      ∧ (∀ i (hi : i < peak.splitters.length),
          (Peak.buildMultipletCascade peak).stages.getD (i + 1) []
            = ((Peak.buildMultipletCascade peak).stages.getD i []).flatMap
                (fun p => childrenOf p (peak.splitters.get ⟨i, hi⟩))) := by
  intro peak
  refine ⟨?_, ?_, ?_, ?_⟩
  · rw [buildMultipletCascade_stages, length_stagesFrom]
  · rw [build_stage_eq peak 0 (by omega)]
    rfl
  · intro i hi
    exact build_stage_length peak i hi
  · intro i hi
    rw [build_stage_succ peak i hi]
    rfl

theorem C2_cascade_shape_witness :
    (2 ≤ (Peak.mk [⟨1, 8⟩, ⟨2, 2⟩] 1).splitters.length)
    ∧ ((Peak.buildMultipletCascade ⟨[⟨1, 8⟩, ⟨2, 2⟩], 1⟩).stages.getD 2 []).length
        = (((Peak.mk [⟨1, 8⟩, ⟨2, 2⟩] 1).splitters.take 2).map
            Splitter.resultantPeakletCount).prod :=
  ⟨by decide, (C2_cascade_shape ⟨[⟨1, 8⟩, ⟨2, 2⟩], 1⟩).2.2.1 2 (by decide)⟩

/-- C3: expanding a parent `p` by a splitter `s` yields exactly `s.n + 1`
children at `p.δ - s.n·j/2 + i·j` with integrations scaled by the normalized
binomial weights, in order; an `n = 0` splitter reproduces its parent; and
inside `build_multiplet_cascade` every stage is exactly these children, parent
by parent. -/
theorem C3_child_placement :
    (∀ (p : Peaklet) (s : Splitter),
        childrenOf p s = (List.range (s.n + 1)).map (fun i =>
          ⟨p.δ - (s.n : ℚ) * s.j / 2 + (i : ℚ) * s.j,
            p.integration * (normalizedPascalsTriangle s.n).getD i 0⟩))
    ∧ (∀ (p : Peaklet) (s : Splitter), s.n = 0 → childrenOf p s = [p])
    ∧ (∀ (peak : Peak) (i : ℕ) (hi : i < peak.splitters.length),
        (Peak.buildMultipletCascade peak).stages.getD (i + 1) []
          = ((Peak.buildMultipletCascade peak).stages.getD i []).flatMap
              (fun p => childrenOf p (peak.splitters.get ⟨i, hi⟩))) := by
  refine ⟨?_, ?_, ?_⟩
  · intro p s
    rw [childrenOf, childrenAux_eq, length_normalizedPascalsTriangle]
    apply List.map_congr_left
    intro i _
    have hn : ((s.resultantPeakletCount - 1 : ℕ) : ℚ) = (s.n : ℚ) := by
      simp [Splitter.resultantPeakletCount]
    rw [hn]
  · intro p s hn
    have hrow : normalizedPascalsTriangle 0 = [1] := by
      have h1 : pascalsTriangle 0 = [1] := rfl
      rw [normalizedPascalsTriangle, h1]
      norm_num
    rw [childrenOf, hn, hrow]
    have hcount : ((Splitter.mk 0 s.j).resultantPeakletCount - 1 : ℕ) = 0 := by
      simp [Splitter.resultantPeakletCount]
    simp only [childrenAux]
    have hδ : p.δ - ((s.resultantPeakletCount - 1 : ℕ) : ℚ) * s.j / 2 = p.δ := by
      simp [Splitter.resultantPeakletCount, hn]
    rw [hδ]
    simp
  · intro peak i hi
    rw [build_stage_succ peak i hi]
    rfl

theorem C3_child_placement_witness :
    ((0 : ℕ) < (Peak.mk [⟨2, 6⟩] 1).splitters.length)
    ∧ (Peak.buildMultipletCascade ⟨[⟨2, 6⟩], 1⟩).stages.getD (0 + 1) []
        = ((Peak.buildMultipletCascade ⟨[⟨2, 6⟩], 1⟩).stages.getD 0 []).flatMap
            (fun p => childrenOf p ((Peak.mk [⟨2, 6⟩] 1).splitters.get ⟨0, by decide⟩)) :=
  ⟨by decide, C3_child_placement.2.2 ⟨[⟨2, 6⟩], 1⟩ 0 (by decide)⟩

/-- C4: whenever no intermediate product overflows the u32 accumulator — in
particular for every n ≤ 9 — `pascals_triangle(n)` is exactly the binomial row
C(n,0)..C(n,n) in order, every division in the recurrence being exact; the
rows for n = 0, 4, 6 are the literal seeds. -/
theorem C4_pascals_triangle :
    (∀ n : ℕ, pt32NoOverflow n →
        pascalsTriangle32 n = (List.range (n + 1)).map n.choose)
    ∧ (∀ n k : ℕ, 1 ≤ k → k ≤ n → k ∣ n.choose (k - 1) * (n + 1 - k))
    ∧ (∀ n : ℕ, n ≤ 9 → pt32NoOverflow n)
    ∧ pascalsTriangle32 0 = [1]
    ∧ pascalsTriangle32 4 = [1, 4, 6, 4, 1]
    ∧ pascalsTriangle32 6 = [1, 6, 15, 20, 15, 6, 1] := by
  refine ⟨?_, ?_, ?_, by decide, by decide, by decide⟩
  · intro n h
    exact pascalsTriangle32_eq n h
  · intro n k hk _
    exact dvd_choose_step n k hk
  · intro n hn
    have h10 : ∀ m : ℕ, m < 10 → pt32NoOverflow m := by decide
    exact h10 n (by omega)

theorem C4_pascals_triangle_witness :
    pt32NoOverflow 9
    ∧ pascalsTriangle32 9 = (List.range 10).map (Nat.choose 9) :=
  ⟨by decide, C4_pascals_triangle.1 9 (by decide)⟩

/-! ## Resolution of a stage (claim C7) -/

theorem allAdjacent_iff :
    ∀ (l : List Peaklet) (f : Peaklet → Peaklet → Bool),
      allAdjacent f l = true ↔ List.Chain' (fun a b => f a b = true) l := by
  intro l f
  induction l with
  | nil => simp [allAdjacent]
  | cons a l ih =>
    cases l with
    | nil => simp [allAdjacent]
    | cons b rest =>
      rw [List.chain'_cons]
      have hunfold : allAdjacent f (a :: b :: rest) = (f a b && allAdjacent f (b :: rest)) := rfl
      rw [hunfold, Bool.and_eq_true]
      exact and_congr Iff.rfl ih

/-- C7: stage 0 of any cascade is trivially resolved; for a built cascade and
a valid stage `n ≥ 1`, `is_stage_resolved` inspects exactly the first parent
group and returns true iff every adjacent pair of its children is at least
`fwhm × 1.1` apart (a pair at exactly that distance counts as resolved, and
groups of fewer than two children are vacuously resolved). -/
theorem C7_is_stage_resolved :
    (∀ c : MultipletCascade, c.isStageResolved 0 = some true)
    ∧ (∀ (peak : Peak) (n : ℕ), 1 ≤ n → n ≤ peak.splitters.length →
        ∃ (parent : Peaklet) (children : List Peaklet)
          (rest : List (Peaklet × List Peaklet)),
          (Peak.buildMultipletCascade peak).iterNthStage n
              = some ((parent, children) :: rest)
          ∧ ∃ b : Bool, (Peak.buildMultipletCascade peak).isStageResolved n = some b
            ∧ (b = true ↔ List.Chain'
                (fun a b => (Peak.buildMultipletCascade peak).fwhm * 1.1 ≤ |a.δ - b.δ|)
                children)) := by
  constructor
  · intro c
    rfl
  · intro peak n h1 h2
    have hiter := iterNthStage_build peak n h1 h2
    set c := Peak.buildMultipletCascade peak with hc
    set parents := c.stages.getD (n - 1) [] with hparents
    have hppos : 0 < parents.length := by
      rw [hparents, hc]
      exact build_stage_length_pos peak (n - 1) (by omega)
    obtain ⟨p₀, parents', hp⟩ : ∃ p₀ parents', parents = p₀ :: parents' := by
      cases hpp : parents with
      | nil => rw [hpp] at hppos; simp at hppos
      | cons x xs => exact ⟨x, xs, rfl⟩
    rw [hp, List.map_cons] at hiter
    refine ⟨p₀, _, _, hiter, ?_⟩
    have hres : c.isStageResolved n
        = some (allAdjacent (fun a b => !a.overlapsWith b c.fwhm)
            (childrenOf p₀ (peak.splitters.get ⟨n - 1, by omega⟩))) := by
      rw [MultipletCascade.isStageResolved, if_neg (by omega : ¬ n = 0), hiter]
    refine ⟨_, hres, ?_⟩
    rw [allAdjacent_iff]
    constructor
    · intro h
      refine h.imp ?_
      intro a b hab
      rw [Bool.not_eq_true', Peaklet.overlapsWith, decide_eq_false_iff_not, not_lt] at hab
      exact hab
    · intro h
      refine h.imp ?_
      intro a b hab
      rw [Bool.not_eq_true', Peaklet.overlapsWith, decide_eq_false_iff_not, not_lt]
      exact hab

theorem C7_is_stage_resolved_witness :
    (1 ≤ 1 ∧ 1 ≤ (Peak.mk [⟨1, 8⟩] 1).splitters.length)
    ∧ ∃ (parent : Peaklet) (children : List Peaklet)
        (rest : List (Peaklet × List Peaklet)),
        (Peak.buildMultipletCascade ⟨[⟨1, 8⟩], 1⟩).iterNthStage 1
            = some ((parent, children) :: rest)
        ∧ ∃ b : Bool, (Peak.buildMultipletCascade ⟨[⟨1, 8⟩], 1⟩).isStageResolved 1 = some b
          ∧ (b = true ↔ List.Chain'
              (fun a b => (Peak.buildMultipletCascade ⟨[⟨1, 8⟩], 1⟩).fwhm * 1.1 ≤ |a.δ - b.δ|)
              children) :=
  ⟨⟨le_rfl, by decide⟩, C7_is_stage_resolved.2 ⟨[⟨1, 8⟩], 1⟩ 1 le_rfl (by decide)⟩

/-! ## Fractional stage index facts (claims C5 and C6) -/

theorem floor_three_halves : ⌊(3 / 2 : ℚ)⌋ = 1 := by
  rw [Int.floor_eq_iff]
  constructor <;> norm_num

theorem fract_three_halves : FractionalStageIndex.fract (3 / 2 : ℚ) = 1 / 2 := by
  rw [FractionalStageIndex.fract, floor_three_halves]
  norm_num

theorem full_three_halves : FractionalStageIndex.full (3 / 2 : ℚ) = 1 := by
  rw [FractionalStageIndex.full, floor_three_halves]
  rfl

theorem hasSig_three_halves :
    FractionalStageIndex.hasSignificantPartial (3 / 2 : ℚ) = true := by
  rw [FractionalStageIndex.hasSignificantPartial, fract_three_halves,
    Bool.not_eq_true', decide_eq_false_iff_not, FractionalStageIndex.epsF64]
  have habs : |(1 : ℚ) / 2 - 0| = 1 / 2 := by
    rw [sub_zero]
    exact abs_of_pos (by norm_num)
  rw [habs]
  norm_num

theorem total_three_halves : FractionalStageIndex.totalStageCount (3 / 2 : ℚ) = 2 := by
  rw [FractionalStageIndex.totalStageCount, full_three_halves, hasSig_three_halves]
  rfl

theorem pai_three_halves :
    FractionalStageIndex.partialAndIndex (3 / 2 : ℚ) = some (2, 1 / 2) := by
  rw [FractionalStageIndex.partialAndIndex, hasSig_three_halves, full_three_halves,
    fract_three_halves]
  rfl

theorem full_natCast (k : ℕ) : FractionalStageIndex.full (k : ℚ) = k := by
  rw [FractionalStageIndex.full, Int.floor_natCast, Int.toNat_natCast]

theorem fract_natCast (k : ℕ) : FractionalStageIndex.fract (k : ℚ) = 0 := by
  rw [FractionalStageIndex.fract, Int.floor_natCast]
  push_cast
  ring

theorem hasSig_natCast (k : ℕ) :
    FractionalStageIndex.hasSignificantPartial (k : ℚ) = false := by
  rw [FractionalStageIndex.hasSignificantPartial, fract_natCast, Bool.not_eq_false',
    decide_eq_true_iff, FractionalStageIndex.epsF64]
  norm_num

theorem total_natCast (k : ℕ) : FractionalStageIndex.totalStageCount (k : ℚ) = k := by
  rw [FractionalStageIndex.totalStageCount, full_natCast, hasSig_natCast]
  rfl

theorem pai_natCast (k : ℕ) :
    FractionalStageIndex.partialAndIndex (k : ℚ) = none := by
  rw [FractionalStageIndex.partialAndIndex, hasSig_natCast]
  rfl

theorem set_last :
    ∀ (l : List Splitter), l ≠ [] → ∀ (a : Splitter),
      l.set (l.length - 1) a = l.dropLast ++ [a] := by
  intro l
  induction l with
  | nil => intro h; exact absurd rfl h
  | cons x l ih =>
    intro _ a
    cases l with
    | nil => rfl
    | cons y rest =>
      have htail := ih (by simp) a
      simp only [List.length_cons, Nat.add_sub_cancel] at htail ⊢
      rw [List.set_cons_succ, htail]
      simp [List.dropLast_cons₂]

/-- C5 (counterexample): for a peak with a single splitter, the fractional
index 1.5 makes `nth_partial_peak` index `splitters[1]` out of bounds (a
panic, modelled as `none`) instead of returning a truncated peak. -/
theorem C5_counterexample :
    Peak.nthPartialPeak ⟨[⟨1, 4⟩], 1⟩ (3 / 2 : ℚ) = none := by
  unfold Peak.nthPartialPeak
  rw [pai_three_halves, total_three_halves]
  dsimp only
  rw [dif_neg (by simp)]

/-- C5 (amended): for a non-negative fractional index whose
`total_stage_count` does not exceed the splitter count, `nth_partial_peak`
truncates the splitter list to `total_stage_count` entries and, when a
significant fractional part exists, multiplies the last remaining splitter's
`j` by it, leaving every other splitter and the fwhm unchanged; in particular
index 1.5 on a 2-splitter peak halves the last splitter's `j` exactly. -/
theorem C5_nth_partial_peak :
    (∀ (peak : Peak) (f : ℚ), 0 ≤ f →
        FractionalStageIndex.totalStageCount f ≤ peak.splitters.length →
        (FractionalStageIndex.hasSignificantPartial f = false →
          peak.nthPartialPeak f
            = some ⟨peak.splitters.take (FractionalStageIndex.totalStageCount f),
                peak.fwhm⟩)
        ∧ (FractionalStageIndex.hasSignificantPartial f = true →
          ∃ s : Splitter,
            (peak.splitters.take (FractionalStageIndex.totalStageCount f)).getLast?
              = some s
            ∧ peak.nthPartialPeak f
              = some ⟨(peak.splitters.take
                      (FractionalStageIndex.totalStageCount f)).dropLast
                  ++ [⟨s.n, s.j * FractionalStageIndex.fract f⟩], peak.fwhm⟩))
    ∧ (∀ (s₁ s₂ : Splitter) (w : ℚ),
        Peak.nthPartialPeak ⟨[s₁, s₂], w⟩ (3 / 2 : ℚ)
          = some ⟨[s₁, ⟨s₂.n, s₂.j * (1 / 2)⟩], w⟩) := by
  have main : ∀ (peak : Peak) (f : ℚ),
      FractionalStageIndex.totalStageCount f ≤ peak.splitters.length →
      (FractionalStageIndex.hasSignificantPartial f = false →
        peak.nthPartialPeak f
          = some ⟨peak.splitters.take (FractionalStageIndex.totalStageCount f),
              peak.fwhm⟩)
      ∧ (FractionalStageIndex.hasSignificantPartial f = true →
        ∃ s : Splitter,
          (peak.splitters.take (FractionalStageIndex.totalStageCount f)).getLast?
            = some s
          ∧ peak.nthPartialPeak f
            = some ⟨(peak.splitters.take
                    (FractionalStageIndex.totalStageCount f)).dropLast
                ++ [⟨s.n, s.j * FractionalStageIndex.fract f⟩], peak.fwhm⟩) := by
    intro peak f htot
    constructor
    · intro hsig
      have hpai : FractionalStageIndex.partialAndIndex f = none := by
        rw [FractionalStageIndex.partialAndIndex, hsig]
        rfl
      unfold Peak.nthPartialPeak
      rw [hpai]
    · intro hsig
      have htotal : FractionalStageIndex.totalStageCount f
          = FractionalStageIndex.full f + 1 := by
        rw [FractionalStageIndex.totalStageCount, hsig]
        rfl
      have hpai : FractionalStageIndex.partialAndIndex f
          = some (FractionalStageIndex.full f + 1, FractionalStageIndex.fract f) := by
        rw [FractionalStageIndex.partialAndIndex, hsig]
        rfl
      set t := peak.splitters.take (FractionalStageIndex.totalStageCount f) with ht
      have htlen : t.length = FractionalStageIndex.full f + 1 := by
        rw [ht, List.length_take, min_eq_left htot, htotal]
      have hidx : t.length - 1 < t.length := by omega
      have hne : t ≠ [] := by
        intro hemp
        rw [hemp] at htlen
        simp at htlen
      refine ⟨t.get ⟨t.length - 1, hidx⟩, ?_, ?_⟩
      · rw [List.getLast?_eq_getElem?, List.getElem?_eq_getElem hidx]
        rfl
      · unfold Peak.nthPartialPeak
        rw [hpai]
        dsimp only
        rw [← ht]
        have hidx2 : FractionalStageIndex.full f + 1 - 1 = t.length - 1 := by omega
        rw [hidx2]
        rw [dif_pos hidx]
        rw [set_last t hne _]
  refine ⟨fun peak f _ htot => main peak f htot, ?_⟩
  intro s₁ s₂ w
  unfold Peak.nthPartialPeak
  rw [pai_three_halves, total_three_halves]
  dsimp only
  rw [dif_pos (by simp)]
  rfl

theorem C5_nth_partial_peak_witness :
    ((0 : ℚ) ≤ 3 / 2)
    ∧ FractionalStageIndex.totalStageCount (3 / 2 : ℚ)
        ≤ (Peak.mk [⟨1, 4⟩, ⟨2, 6⟩] 1).splitters.length
    ∧ Peak.nthPartialPeak ⟨[⟨1, 4⟩, ⟨2, 6⟩], 1⟩ (3 / 2 : ℚ)
        = some ⟨[⟨1, 4⟩, ⟨2, 6 * (1 / 2)⟩], 1⟩ :=
  ⟨by norm_num, by rw [total_three_halves]; simp,
    C5_nth_partial_peak.2 ⟨1, 4⟩ ⟨2, 6⟩ 1⟩

/-- C6: a fractional index exactly at an integer `k ≤ splitter count` has
`total_stage_count = full = k`, and the cascade of `nth_partial_peak` at that
index is exactly the first `k + 1` stages of the full cascade with the same
fwhm. -/
theorem C6_integer_index_truncation :
    ∀ (peak : Peak) (k : ℕ), k ≤ peak.splitters.length →
      FractionalStageIndex.full (k : ℚ) = k
      ∧ FractionalStageIndex.totalStageCount (k : ℚ) = k
      ∧ ∃ q : Peak, peak.nthPartialPeak (k : ℚ) = some q
          ∧ q.buildMultipletCascade.stages
              = (Peak.buildMultipletCascade peak).stages.take (k + 1)
          ∧ q.buildMultipletCascade.fwhm = (Peak.buildMultipletCascade peak).fwhm := by
  intro peak k hk
  refine ⟨full_natCast k, total_natCast k, ⟨peak.splitters.take k, peak.fwhm⟩, ?_, ?_, rfl⟩
  · unfold Peak.nthPartialPeak
    rw [pai_natCast]
    dsimp only
    rw [total_natCast]
  · rw [buildMultipletCascade_stages, buildMultipletCascade_stages]
    exact stagesFrom_take peak.splitters [Peaklet.parentSinglet] k hk

theorem C6_integer_index_truncation_witness :
    (1 ≤ (Peak.mk [⟨1, 8⟩, ⟨2, 2⟩] 1).splitters.length)
    ∧ FractionalStageIndex.full ((1 : ℕ) : ℚ) = 1
    ∧ FractionalStageIndex.totalStageCount ((1 : ℕ) : ℚ) = 1
    ∧ ∃ q : Peak, (Peak.mk [⟨1, 8⟩, ⟨2, 2⟩] 1).nthPartialPeak ((1 : ℕ) : ℚ) = some q
        ∧ q.buildMultipletCascade.stages
            = (Peak.buildMultipletCascade ⟨[⟨1, 8⟩, ⟨2, 2⟩], 1⟩).stages.take (1 + 1)
        ∧ q.buildMultipletCascade.fwhm
            = (Peak.buildMultipletCascade ⟨[⟨1, 8⟩, ⟨2, 2⟩], 1⟩).fwhm :=
  ⟨by decide, C6_integer_index_truncation ⟨[⟨1, 8⟩, ⟨2, 2⟩], 1⟩ 1 (by decide)⟩

/-! ## Extent of a Gaussian sum (claim C8) -/

theorem extent_foldl_spec :
    ∀ (es : List (ℚ × ℚ)) (e : ℚ × ℚ),
      ((es.foldl (fun a b => (min a.1 b.1, max a.2 b.2)) e).1 ∈ e.1 :: es.map Prod.fst
        ∧ ∀ x ∈ e.1 :: es.map Prod.fst,
            (es.foldl (fun a b => (min a.1 b.1, max a.2 b.2)) e).1 ≤ x)
      ∧ ((es.foldl (fun a b => (min a.1 b.1, max a.2 b.2)) e).2 ∈ e.2 :: es.map Prod.snd
        ∧ ∀ x ∈ e.2 :: es.map Prod.snd,
            x ≤ (es.foldl (fun a b => (min a.1 b.1, max a.2 b.2)) e).2) := by
  intro es
  induction es with
  | nil =>
    intro e
    refine ⟨⟨by simp, ?_⟩, ⟨by simp, ?_⟩⟩
    · intro x hx
      simp only [List.map_nil, List.mem_singleton] at hx
      simp [hx]
    · intro x hx
      simp only [List.map_nil, List.mem_singleton] at hx
      simp [hx]
  | cons b es ih =>
    intro e
    obtain ⟨⟨hmem1, hbd1⟩, hmem2, hbd2⟩ := ih (min e.1 b.1, max e.2 b.2)
    simp only [List.foldl_cons, List.map_cons]
    refine ⟨⟨?_, ?_⟩, ?_, ?_⟩
    · rcases List.mem_cons.mp hmem1 with h1 | h1
      · rcases min_choice e.1 b.1 with hm | hm
        · rw [h1, hm]; exact List.mem_cons_self _ _
        · rw [h1, hm]
          exact List.mem_cons_of_mem _ (List.mem_cons_self _ _)
      · exact List.mem_cons_of_mem _ (List.mem_cons_of_mem _ h1)
    · intro x hx
      have hle : (es.foldl (fun a b => (min a.1 b.1, max a.2 b.2))
          (min e.1 b.1, max e.2 b.2)).1 ≤ min e.1 b.1 :=
        hbd1 _ (List.mem_cons_self _ _)
      rcases List.mem_cons.mp hx with h1 | h1
      · rw [h1] at *
        exact le_trans hle (min_le_left _ _)
      · rcases List.mem_cons.mp h1 with h2 | h2
        · rw [h2] at *
          exact le_trans hle (min_le_right _ _)
        · exact hbd1 _ (List.mem_cons_of_mem _ h2)
    · rcases List.mem_cons.mp hmem2 with h1 | h1
      · rcases max_choice e.2 b.2 with hm | hm
        · rw [h1, hm]; exact List.mem_cons_self _ _
        · rw [h1, hm]
          exact List.mem_cons_of_mem _ (List.mem_cons_self _ _)
      · exact List.mem_cons_of_mem _ (List.mem_cons_of_mem _ h1)
    · intro x hx
      have hle : max e.2 b.2 ≤ (es.foldl (fun a b => (min a.1 b.1, max a.2 b.2))
          (min e.1 b.1, max e.2 b.2)).2 :=
        hbd2 _ (List.mem_cons_self _ _)
      rcases List.mem_cons.mp hx with h1 | h1
      · rw [h1] at *
        exact le_trans (le_max_left _ _) hle
      · rcases List.mem_cons.mp h1 with h2 | h2
        · rw [h2] at *
          exact le_trans (le_max_right _ _) hle
        · exact hbd2 _ (List.mem_cons_of_mem _ h2)

/-- C8: the extent of an empty sum is `[0, 0]`; the extent of a non-empty sum
is the componentwise union of the components' intervals (its left edge is the
least left edge and its right edge the greatest right edge, each attained by a
component); a single Gaussian at center 5, fwhm 2 gives exactly
`[5 - 3σ, 5 + 3σ]` with σ = 2 / 2.354820045 ≈ 0.849. -/
theorem C8_extent :
    (∀ σ : ℚ, (GaussianSum.mk []).extent σ = (0, 0))
    ∧ (∀ (sum : GaussianSum) (σ : ℚ), sum.gaussians ≠ [] →
        ((sum.extent σ).1 ∈ sum.gaussians.map (fun g => g.μ - g.σ * σ)
          ∧ (∀ g ∈ sum.gaussians, (sum.extent σ).1 ≤ g.μ - g.σ * σ)
          ∧ (sum.extent σ).2 ∈ sum.gaussians.map (fun g => g.μ + g.σ * σ)
          ∧ (∀ g ∈ sum.gaussians, g.μ + g.σ * σ ≤ (sum.extent σ).2)))
    ∧ (GaussianSum.fromList [Gaussian.withFwhm 2 5 1]).extent 3
        = (5 - 3 * (2 / FWHM_FOR_σ), 5 + 3 * (2 / FWHM_FOR_σ))
    ∧ |2 / FWHM_FOR_σ - 0.849| < 1 / 1000 := by
  refine ⟨fun σ => rfl, ?_, ?_, ?_⟩
  · intro sum σ hne
    obtain ⟨gsum⟩ := sum
    match gsum, hne with
    | g :: gs, _ =>
      have key := extent_foldl_spec
        ((gs.map (fun g => (g.μ - g.σ * σ, g.μ + g.σ * σ))))
        (g.μ - g.σ * σ, g.μ + g.σ * σ)
      have hext : (GaussianSum.mk (g :: gs)).extent σ
          = (gs.map (fun g => (g.μ - g.σ * σ, g.μ + g.σ * σ))).foldl
              (fun a b => (min a.1 b.1, max a.2 b.2)) (g.μ - g.σ * σ, g.μ + g.σ * σ) := by
        rfl
      rw [hext]
      obtain ⟨⟨hmem1, hbd1⟩, hmem2, hbd2⟩ := key
      have hfst : (g.μ - g.σ * σ) :: (gs.map (fun g => (g.μ - g.σ * σ, g.μ + g.σ * σ))).map
            Prod.fst = (g :: gs).map (fun g => g.μ - g.σ * σ) := by
        rw [List.map_map, List.map_cons]
        rfl
      have hsnd : (g.μ + g.σ * σ) :: (gs.map (fun g => (g.μ - g.σ * σ, g.μ + g.σ * σ))).map
            Prod.snd = (g :: gs).map (fun g => g.μ + g.σ * σ) := by
        rw [List.map_map, List.map_cons]
        rfl
      rw [hfst] at hmem1 hbd1
      rw [hsnd] at hmem2 hbd2
      refine ⟨hmem1, ?_, hmem2, ?_⟩
      · intro g' hg'
        exact hbd1 _ (List.mem_map_of_mem _ hg')
      · intro g' hg'
        exact hbd2 _ (List.mem_map_of_mem _ hg')
  · have h1 : GaussianSum.fromList [Gaussian.withFwhm 2 5 1]
        = GaussianSum.mk [Gaussian.withFwhm 2 5 1] := by
      rw [GaussianSum.fromList, List.mergeSort_singleton]
    rw [h1]
    have h2 : (GaussianSum.mk [Gaussian.withFwhm 2 5 1]).extent 3
        = (5 - 2 / FWHM_FOR_σ * 3, 5 + 2 / FWHM_FOR_σ * 3) := rfl
    rw [h2, Prod.mk.injEq]
    constructor <;> ring
  · rw [abs_sub_lt_iff]
    constructor <;> (rw [FWHM_FOR_σ]; norm_num)

theorem C8_extent_witness :
    ((GaussianSum.mk [⟨5, 1, 1⟩, ⟨0, 2, 1⟩]).gaussians ≠ [])
    ∧ ((GaussianSum.mk [⟨5, 1, 1⟩, ⟨0, 2, 1⟩]).extent 3).1
        ∈ (GaussianSum.mk [⟨5, 1, 1⟩, ⟨0, 2, 1⟩]).gaussians.map (fun g => g.μ - g.σ * 3)
    ∧ (∀ g ∈ (GaussianSum.mk [⟨5, 1, 1⟩, ⟨0, 2, 1⟩]).gaussians,
        ((GaussianSum.mk [⟨5, 1, 1⟩, ⟨0, 2, 1⟩]).extent 3).1 ≤ g.μ - g.σ * 3)
    ∧ ((GaussianSum.mk [⟨5, 1, 1⟩, ⟨0, 2, 1⟩]).extent 3).2
        ∈ (GaussianSum.mk [⟨5, 1, 1⟩, ⟨0, 2, 1⟩]).gaussians.map (fun g => g.μ + g.σ * 3)
    ∧ (∀ g ∈ (GaussianSum.mk [⟨5, 1, 1⟩, ⟨0, 2, 1⟩]).gaussians,
        g.μ + g.σ * 3 ≤ ((GaussianSum.mk [⟨5, 1, 1⟩, ⟨0, 2, 1⟩]).extent 3).2) := by
  have h := C8_extent.2.1 (GaussianSum.mk [⟨5, 1, 1⟩, ⟨0, 2, 1⟩]) 3 (by simp)
  exact ⟨by simp, h.1, h.2.1, h.2.2.1, h.2.2.2⟩

/-! ## Naming (claim C9) -/

theorem abbrev_le5 (s : Splitter) (h : s.n ≤ 5) :
    s.abbreviatePattern.str.length = 1 ∧ s.abbreviatePattern.isBorrowed = true := by
  obtain ⟨n, j⟩ := s
  interval_cases n <;> exact ⟨rfl, rfl⟩

theorem abbrev_ge6 (s : Splitter) (h : 6 ≤ s.n) :
    ¬(s.abbreviatePattern.str.length = 1 ∧ s.abbreviatePattern.isBorrowed = true) := by
  obtain ⟨n, j⟩ := s
  match n, h with
  | 6, _ =>
    rintro ⟨h1, -⟩
    have hh : ({ n := 6, j := j } : Splitter).abbreviatePattern.str = "hept" := rfl
    rw [hh] at h1
    exact absurd h1 (by decide)
  | m + 7, _ =>
    rintro ⟨-, h2⟩
    have hnone : PATTERN_ABBREVIATIONS.get? (m + 7) = none := by
      rw [List.get?_eq_none]
      simp [PATTERN_ABBREVIATIONS]
    unfold Splitter.abbreviatePattern at h2
    rw [hnone] at h2
    simp [CowStr.isBorrowed] at h2

theorem nameEntry_of_le5 (s : Splitter) (h : s.n ≤ 5) :
    nameEntry s = some s.abbreviatePattern.str := by
  obtain ⟨hl, hb⟩ := abbrev_le5 s h
  unfold nameEntry
  rw [if_pos]
  rw [Bool.and_eq_true, decide_eq_true_iff]
  exact ⟨hl, hb⟩

theorem nameEntry_of_ge6 (s : Splitter) (h : 6 ≤ s.n) : nameEntry s = none := by
  unfold nameEntry
  rw [if_neg]
  intro hcond
  rw [Bool.and_eq_true, decide_eq_true_iff] at hcond
  exact abbrev_ge6 s h ⟨hcond.1, hcond.2⟩

theorem collect_map_of_all_le5 :
    ∀ (ss : List Splitter), (∀ s ∈ ss, s.n ≤ 5) →
      collectOptionStrings (ss.map nameEntry)
        = some (strConcat (ss.map (fun s => s.abbreviatePattern.str))) := by
  intro ss
  induction ss with
  | nil => intro _; rfl
  | cons s ss ih =>
    intro hall
    rw [List.map_cons, nameEntry_of_le5 s (hall s (List.mem_cons_self _ _))]
    rw [show collectOptionStrings (some s.abbreviatePattern.str :: ss.map nameEntry)
        = (collectOptionStrings (ss.map nameEntry)).map
            (fun t => s.abbreviatePattern.str ++ t) from rfl]
    rw [ih (fun x hx => hall x (List.mem_cons_of_mem _ hx))]
    rfl

theorem collect_none_mem :
    ∀ (l : List (Option String)), none ∈ l → collectOptionStrings l = none := by
  intro l
  induction l with
  | nil => intro h; exact absurd h (List.not_mem_nil _)
  | cons a l ih =>
    intro h
    match a with
    | none => rfl
    | some s =>
      have htail : none ∈ l := by
        rcases List.mem_cons.mp h with h1 | h1
        · exact absurd h1 (by simp)
        · exact h1
      rw [show collectOptionStrings (some s :: l)
          = (collectOptionStrings l).map (fun t => s ++ t) from rfl]
      rw [ih htail]
      rfl

/-- C9: a peak with no splitters is named by the singlet abbreviation "s";
a splitter's abbreviation is single-character and borrowed exactly when
`n ≤ 5`; for a non-empty splitter list, `name` is the concatenation of the
abbreviations iff every splitter has `n ≤ 5`, and any splitter with `n ≥ 6`
(the multi-character heptet included) collapses the result to `none`. -/
theorem C9_peak_name :
    ∀ p : Peak,
      (p.splitters = [] → p.name = some "s")
      ∧ (∀ s : Splitter, (s.abbreviatePattern.str.length = 1
            ∧ s.abbreviatePattern.isBorrowed = true) ↔ s.n ≤ 5)
      ∧ (p.splitters ≠ [] →
          ((p.name = some (strConcat (p.splitters.map
                (fun s => s.abbreviatePattern.str))))
              ↔ ∀ s ∈ p.splitters, s.n ≤ 5)
          ∧ ((∃ s ∈ p.splitters, 6 ≤ s.n) → p.name = none)) := by
  intro p
  refine ⟨?_, ?_, ?_⟩
  · intro h
    rw [Peak.name, if_pos (by rw [h]; rfl)]
    rfl
  · intro s
    constructor
    · rintro ⟨h1, h2⟩
      by_contra hgt
      push_neg at hgt
      exact abbrev_ge6 s hgt ⟨h1, h2⟩
    · exact abbrev_le5 s
  · intro hne
    have hlen : ¬ p.splitters.length = 0 := by
      rw [List.length_eq_zero]
      exact hne
    constructor
    · constructor
      · intro hname
        by_contra hnot
        push_neg at hnot
        obtain ⟨s, hsmem, hs6⟩ := hnot
        have hnone : p.name = none := by
          rw [Peak.name, if_neg hlen]
          apply collect_none_mem
          exact List.mem_map.mpr ⟨s, hsmem, nameEntry_of_ge6 s (by omega)⟩
        rw [hnone] at hname
        exact Option.noConfusion hname
      · intro hall
        rw [Peak.name, if_neg hlen]
        exact collect_map_of_all_le5 p.splitters hall
    · rintro ⟨s, hsmem, hs6⟩
      rw [Peak.name, if_neg hlen]
      apply collect_none_mem
      exact List.mem_map.mpr ⟨s, hsmem, nameEntry_of_ge6 s hs6⟩

theorem C9_peak_name_witness :
    ((Peak.mk [⟨1, 5⟩, ⟨2, 3⟩] 1).splitters ≠ [])
    ∧ (((Peak.mk [⟨1, 5⟩, ⟨2, 3⟩] 1).name
          = some (strConcat ((Peak.mk [⟨1, 5⟩, ⟨2, 3⟩] 1).splitters.map
              (fun s => s.abbreviatePattern.str))))
        ↔ ∀ s ∈ (Peak.mk [⟨1, 5⟩, ⟨2, 3⟩] 1).splitters, s.n ≤ 5)
    ∧ ((∃ s ∈ (Peak.mk [⟨1, 5⟩, ⟨2, 3⟩] 1).splitters, 6 ≤ s.n)
        → (Peak.mk [⟨1, 5⟩, ⟨2, 3⟩] 1).name = none) :=
  ⟨by simp, ((C9_peak_name ⟨[⟨1, 5⟩, ⟨2, 3⟩], 1⟩).2.2 (by simp)).1,
    ((C9_peak_name ⟨[⟨1, 5⟩, ⟨2, 3⟩], 1⟩).2.2 (by simp)).2⟩

/-! ## Sorting by coupling constant (claim C10) -/

/-- C10: `sort_by_j` permutes the splitter list into descending order of the
coupling constant `j` (largest first) and changes nothing else of the peak;
the spec never states this direction. -/
theorem C10_sort_by_j :
    ∀ p : Peak,
      (p.sortByJ).splitters.Perm p.splitters
      ∧ (p.sortByJ).splitters.Pairwise (fun a b => b.j ≤ a.j)
      ∧ (p.sortByJ).fwhm = p.fwhm := by
  intro p
  refine ⟨List.mergeSort_perm _ _, ?_, rfl⟩
  have h := @List.sorted_mergeSort Splitter
    (fun a b : Splitter => decide (b.j ≤ a.j))
    (fun a b c hab hbc => by
      rw [decide_eq_true_iff] at hab hbc ⊢
      exact le_trans hbc hab)
    (fun a b => by
      rw [Bool.or_eq_true, decide_eq_true_iff, decide_eq_true_iff]
      exact le_total b.j a.j)
    p.splitters
  exact h.imp (fun hab => decide_eq_true_iff.mp hab)
